import Mathlib

/-!
Verification of the q-custom-plugin synchronization connector
(src/connectors/dataSourceConnector.js and the PluginManager in the same
file). The JavaScript code is shallowly embedded: JS truthiness of strings
is modeled explicitly, the stateful upload pipeline is modeled as a pure
function producing an event trace, and loops whose termination is in
question are modeled with explicit fuel.
-/

namespace QPlugin

/-! ## JS truthiness helpers

In JavaScript, the expression a-or-b written with the logical-or operator
evaluates to b exactly when a is falsy; for a string field that is either
absent (undefined) or present, the falsy cases are "absent" and the empty
string. -/

/-- JS expression x || d where x is an optional string field: the default d
is taken when the field is absent or the empty string. -/
def jsOrS (x : Option String) (d : String) : String :=
  match x with
  | none => d
  | some s => if s = "" then d else s

/-- JS truthiness filter for an optional string field, used by the
if-field-then-copy pattern of extractCustomAttributes: a present empty
string behaves like an absent field. -/
def jsTruthy (x : Option String) : Option String :=
  match x with
  | none => none
  | some s => if s = "" then none else some s

/-! ## Batcher: PluginManager.createBatches

JS source (dataSourceConnector.js, lines 357-363):

    createBatches(documents, batchSize) {
        const batches = [];
        for (let i = 0; i < documents.length; i += batchSize) {
            batches.push(documents.slice(i, i + batchSize));
        }
        return batches;
    }

The loop index i is a JS number that can go negative or stay put when
batchSize <= 0, so the loop is embedded with an Int index and explicit
fuel; createBatchesLoop returning none for every fuel models divergence. -/

/-- JS Array.prototype.slice index resolution: a negative index counts from
the end of the array and the result is clamped into the range 0..length. -/
def jsClamp (n : Nat) (x : Int) : Nat :=
  (if x < 0 then max ((n : Int) + x) 0 else min x (n : Int)).toNat

/-- JS Array.prototype.slice with integer arguments. -/
def jsSlice (l : List α) (start stop : Int) : List α :=
  (l.drop (jsClamp l.length start)).take (jsClamp l.length stop - jsClamp l.length start)

/-- Fuel-indexed embedding of the createBatches for-loop. The loop state is
the index i and the accumulator acc; none means the loop did not finish
within the given fuel. -/
def createBatchesLoop (documents : List α) (batchSize : Int) :
    Nat → Int → List (List α) → Option (List (List α))
  | 0, _, _ => none
  | fuel + 1, i, acc =>
    if i < (documents.length : Int) then
      createBatchesLoop documents batchSize fuel (i + batchSize)
        (acc ++ [jsSlice documents i (i + batchSize)])
    else
      some acc

/-- The batching function as a structurally terminating recursion, used to
state the functional properties; createBatchesLoop_eq ties it to the JS
loop for every positive batch size. -/
def createBatches (s : Nat) : List α → List (List α)
  | [] => []
  | d :: ds => (d :: ds.take (s - 1)) :: createBatches s (ds.drop (s - 1))
termination_by l => l.length
decreasing_by
  simp only [List.length_cons]
  exact Nat.lt_succ_of_le (List.length_drop .. ▸ Nat.sub_le ..)

theorem createBatches_nil (s : Nat) : createBatches s ([] : List α) = [] := by
  simp [createBatches]

theorem createBatches_cons (s : Nat) (d : α) (ds : List α) :
    createBatches s (d :: ds) =
      (d :: ds.take (s - 1)) :: createBatches s (ds.drop (s - 1)) := by
  simp [createBatches]

theorem createBatches_cons_of_pos (s : Nat) (hs : 1 ≤ s) (d : α) (ds : List α) :
    createBatches s (d :: ds) =
      (d :: ds).take s :: createBatches s ((d :: ds).drop s) := by
  rw [createBatches_cons]
  cases s with
  | zero => omega
  | succ t => simp

theorem jsClamp_natCast (n a : Nat) : jsClamp n (a : Int) = min a n := by
  unfold jsClamp
  rw [if_neg (by omega)]
  omega

/-- For a nonnegative start index the JS slice is a take of a drop. -/
theorem jsSlice_nat_eq (l : List α) (a s : Nat) :
    jsSlice l (a : Int) ((a : Int) + (s : Int)) = (l.drop a).take s := by
  unfold jsSlice
  have hsum : (a : Int) + (s : Int) = ((a + s : Nat) : Int) := by push_cast; ring
  rw [hsum, jsClamp_natCast, jsClamp_natCast]
  rcases le_or_lt a l.length with hA | hC
  · rw [min_eq_left hA]
    rcases le_or_lt (a + s) l.length with hA2 | hB
    · rw [min_eq_left hA2]
      congr 1
      omega
    · rw [min_eq_right (by omega)]
      have hlen : (l.drop a).length = l.length - a := List.length_drop a l
      rw [List.take_of_length_le (by omega), List.take_of_length_le (by omega)]
  · rw [min_eq_right (by omega), min_eq_right (by omega)]
    rw [List.drop_eq_nil_of_le (by omega)]
    simp
    omega

/-- The JS for-loop of createBatches computes exactly the recursive
chunking, for every positive batch size and any sufficient fuel. -/
theorem createBatchesLoop_eq (s : Nat) (hs : 1 ≤ s) (docs : List α) :
    ∀ (fuel i : Nat) (acc : List (List α)), docs.length - i < fuel →
      createBatchesLoop docs (s : Int) fuel (i : Int) acc
        = some (acc ++ createBatches s (docs.drop i)) := by
  intro fuel
  induction fuel with
  | zero => intro i acc h; omega
  | succ fuel ih =>
    intro i acc h
    unfold createBatchesLoop
    by_cases hi : (i : Int) < (docs.length : Int)
    · rw [if_pos hi]
      have hi2 : i < docs.length := by exact_mod_cast hi
      have hcast : (i : Int) + (s : Int) = ((i + s : Nat) : Int) := by push_cast; ring
      rw [hcast, ih (i + s) _ (by omega)]
      have hne : docs.drop i ≠ [] := by
        intro hnil
        have := List.length_drop i docs
        rw [hnil] at this
        simp at this
        omega
      obtain ⟨d, ds, hds⟩ := List.exists_cons_of_ne_nil hne
      rw [← hcast, jsSlice_nat_eq, hds, createBatches_cons_of_pos s hs]
      have hdd : (docs.drop i).drop s = docs.drop (i + s) := by
        rw [List.drop_drop]
      rw [← hds, hdd]
      simp
    · rw [if_neg hi]
      have hge : docs.length ≤ i := by exact_mod_cast Int.not_lt.mp hi
      rw [List.drop_eq_nil_of_le hge, createBatches_nil]
      simp

/-- When the batch size is nonpositive, the loop index never advances past
a non-empty list, so no amount of fuel makes the loop finish: the JS code
loops forever. -/
theorem createBatchesLoop_diverges (docs : List α) (bs : Int)
    (hne : docs ≠ []) (hbs : bs ≤ 0) :
    ∀ (fuel : Nat) (i : Int) (acc : List (List α)), i ≤ 0 →
      createBatchesLoop docs bs fuel i acc = none := by
  intro fuel
  induction fuel with
  | zero => intro i acc _; rfl
  | succ fuel ih =>
    intro i acc hi
    have hlen : 0 < docs.length := List.length_pos.mpr hne
    unfold createBatchesLoop
    rw [if_pos (by exact_mod_cast lt_of_le_of_lt hi (by exact_mod_cast hlen))]
    exact ih _ _ (by omega)

theorem createBatches_flatten (s : Nat) (hs : 1 ≤ s) :
    ∀ (n : Nat) (docs : List α), docs.length ≤ n →
      (createBatches s docs).flatten = docs := by
  intro n
  induction n with
  | zero =>
    intro docs h
    have hd : docs = [] := List.length_eq_zero.mp (by omega)
    subst hd
    rw [createBatches_nil]
    rfl
  | succ n ih =>
    intro docs h
    match docs with
    | [] => rw [createBatches_nil]; rfl
    | d :: ds =>
      rw [createBatches_cons_of_pos s hs, List.flatten_cons,
        ih _ (by simp at h ⊢; omega)]
      exact List.take_append_drop s (d :: ds)

theorem ceilDiv_step (s n : Nat) (hs : 1 ≤ s) (hn : 1 ≤ n) :
    (n + s - 1) / s = (n - s + s - 1) / s + 1 := by
  rcases le_or_lt n s with h | h
  · have h1 : n - s = 0 := by omega
    have h2 : n + s - 1 = (n - 1) + s := by omega
    rw [h1, h2, Nat.add_div_right _ (by omega)]
    have e1 : (n - 1) / s = 0 := Nat.div_eq_of_lt (by omega)
    have e2 : (0 + s - 1) / s = 0 := Nat.div_eq_of_lt (by omega)
    omega
  · have h2 : n + s - 1 = (n - s + s - 1) + s := by omega
    rw [h2, Nat.add_div_right _ (by omega)]

theorem createBatches_length (s : Nat) (hs : 1 ≤ s) :
    ∀ (n : Nat) (docs : List α), docs.length ≤ n →
      (createBatches s docs).length = (docs.length + s - 1) / s := by
  intro n
  induction n with
  | zero =>
    intro docs h
    have hd : docs = [] := List.length_eq_zero.mp (by omega)
    subst hd
    rw [createBatches_nil]
    simp only [List.length_nil]
    exact (Nat.div_eq_of_lt (by omega)).symm
  | succ n ih =>
    intro docs h
    match docs with
    | [] =>
      rw [createBatches_nil]
      simp only [List.length_nil]
      exact (Nat.div_eq_of_lt (by omega)).symm
    | d :: ds =>
      rw [createBatches_cons_of_pos s hs, List.length_cons,
        ih _ (by simp at h ⊢; omega)]
      have hlen : ((d :: ds).drop s).length = (d :: ds).length - s :=
        List.length_drop s (d :: ds)
      rw [hlen, ceilDiv_step s (d :: ds).length hs (by simp)]

theorem createBatches_mem (s : Nat) (hs : 1 ≤ s) :
    ∀ (n : Nat) (docs : List α), docs.length ≤ n →
      ∀ b ∈ createBatches s docs, b ≠ [] ∧ b.length ≤ s := by
  intro n
  induction n with
  | zero =>
    intro docs h b hb
    have hd : docs = [] := List.length_eq_zero.mp (by omega)
    subst hd
    rw [createBatches_nil] at hb
    exact absurd hb (List.not_mem_nil b)
  | succ n ih =>
    intro docs h b hb
    match docs with
    | [] =>
      rw [createBatches_nil] at hb
      exact absurd hb (List.not_mem_nil b)
    | d :: ds =>
      rw [createBatches_cons_of_pos s hs] at hb
      rcases List.mem_cons.mp hb with hb | hb
      · subst hb
        constructor
        · cases s with
          | zero => omega
          | succ t => simp
        · rw [List.length_take]
          omega
      · exact ih _ (by simp at h ⊢; omega) b hb

theorem createBatches_sizes (s : Nat) (hs : 1 ≤ s) :
    ∀ (n : Nat) (docs : List α), docs.length ≤ n →
      ∀ i, i < (createBatches s docs).length - 1 →
        ((createBatches s docs).getD i []).length = s := by
  intro n
  induction n with
  | zero =>
    intro docs h i hi
    have hd : docs = [] := List.length_eq_zero.mp (by omega)
    subst hd
    rw [createBatches_nil] at hi
    simp only [List.length_nil] at hi
    omega
  | succ n ih =>
    intro docs h i hi
    match docs with
    | [] =>
      rw [createBatches_nil] at hi
      simp only [List.length_nil] at hi
      omega
    | d :: ds =>
      rw [createBatches_cons_of_pos s hs] at hi ⊢
      match i with
      | 0 =>
        simp only [List.length_cons] at hi
        have htail : createBatches s ((d :: ds).drop s) ≠ [] := by
          intro hnil
          rw [hnil] at hi
          simp at hi
        have hdropne : (d :: ds).drop s ≠ [] := by
          intro hnil
          rw [hnil, createBatches_nil] at htail
          exact htail rfl
        have hslt : s < (d :: ds).length := by
          by_contra hc
          exact hdropne (List.drop_eq_nil_of_le (by omega))
        rw [List.getD_cons_zero, List.length_take]
        simp only [List.length_cons] at hslt ⊢
        omega
      | i + 1 =>
        simp only [List.length_cons] at hi
        rw [List.getD_cons_succ]
        exact ih ((d :: ds).drop s) (by simp at h ⊢; omega) i (by omega)

/-! ## Document Transformer: PluginManager.transformDocument

JS source (dataSourceConnector.js, lines 277-321). A raw source record is
an unstructured bag of fields; the fields the transformer reads are
modeled as optional strings. Buffer.from(x, utf-8) is modeled as the list
of UTF-8 bytes of x. -/

/-- The fields of a source-native record that transformDocument,
extractCustomAttributes and generateDocumentId read. Absent JS fields are
none. -/
structure RawDocument where
  id : Option String
  title : Option String
  name : Option String
  content : Option String
  body : Option String
  url : Option String
  srcField : Option String
  createdAt : Option String
  updatedAt : Option String
  author : Option String
  category : Option String
  tags : Option String
deriving DecidableEq, Repr

/-- A record with every field absent. -/
def RawDocument.empty : RawDocument :=
  ⟨none, none, none, none, none, none, none, none, none, none, none, none⟩

/-- UTF-8 encoding of a string, modeling Buffer.from(s, utf-8). -/
def utf8Bytes (s : String) : List UInt8 :=
  s.data.flatMap String.utf8EncodeChar

/-- The attributes object built by transformDocument: the three mandatory
attributes _source_uri, _created_at, _updated_at, then the spread of
extractCustomAttributes. -/
structure SinkAttributes where
  sourceUri : String
  createdAt : String
  updatedAt : String
  author : Option String
  category : Option String
  tags : Option String
deriving DecidableEq, Repr

/-- The document shape sent to the sink batch-put operation. -/
structure SinkDocument where
  id : String
  title : String
  contentBlob : List UInt8
  contentType : String
  attributes : SinkAttributes
deriving DecidableEq, Repr

/-- Ambient values the transformer reads besides the document itself: the
configured plugin name, the wall clock (Date.now() as milliseconds and
new Date().toISOString() as a string), and the 8-hex-character md5 digest
of the JSON serialization of the document. md5 and JSON.stringify are
modeled abstractly as the function hash8. -/
structure TransformCtx where
  pluginName : String
  nowMs : Nat
  nowIso : String
  hash8 : RawDocument → String

/-- PluginManager.generateDocumentId (lines 311-321): plugin name, current
timestamp and content hash joined by dashes. -/
def generateDocumentId (ctx : TransformCtx) (document : RawDocument) : String :=
  ctx.pluginName ++ "-" ++ toString ctx.nowMs ++ "-" ++ ctx.hash8 document

/-- PluginManager.extractCustomAttributes (lines 297-306): author,
category and tags are copied through only when JS-truthy. -/
def extractCustomAttributes (document : RawDocument) :
    Option String × Option String × Option String :=
  (jsTruthy document.author, jsTruthy document.category, jsTruthy document.tags)

/-- PluginManager.transformDocument (lines 277-292), field by field. The
JS field named source is modeled as srcField. -/
def transformDocument (ctx : TransformCtx) (document : RawDocument) :
    SinkDocument :=
  { id := jsOrS document.id (generateDocumentId ctx document)
    title := jsOrS document.title (jsOrS document.name "Untitled")
    contentBlob := utf8Bytes (jsOrS document.content (jsOrS document.body ""))
    contentType := "PLAIN_TEXT"
    attributes :=
      { sourceUri := jsOrS document.url (jsOrS document.srcField "")
        createdAt := jsOrS document.createdAt ctx.nowIso
        updatedAt := jsOrS document.updatedAt ctx.nowIso
        author := (extractCustomAttributes document).1
        category := (extractCustomAttributes document).2.1
        tags := (extractCustomAttributes document).2.2 } }

theorem generateDocumentId_ne_empty (ctx : TransformCtx) (document : RawDocument) :
    generateDocumentId ctx document ≠ "" := by
  intro h
  have hlen : (generateDocumentId ctx document).length = 0 := by rw [h]; rfl
  unfold generateDocumentId at hlen
  rw [String.length_append, String.length_append, String.length_append] at hlen
  have : ("-" : String).length = 1 := rfl
  omega

theorem jsOrS_ne_empty (x : Option String) (d : String) (hd : d ≠ "") :
    jsOrS x d ≠ "" := by
  match x with
  | none => exact hd
  | some s =>
    show (if s = "" then d else s) ≠ ""
    by_cases hs : s = ""
    · rw [if_pos hs]; exact hd
    · rw [if_neg hs]; exact hs

/-! ## Upload pipeline: PluginManager.processBatches, retryBatch

JS source (dataSourceConnector.js, lines 326-352 and 388-411). The
side-effecting pipeline is embedded as a pure function producing a trace
of observable events: each uploadBatch call (with the exact document list
passed and whether the sink call succeeded) and each delay. Whether a
given uploadBatch call raises is an oracle okf indexed by the global count
of upload calls made so far; the third result component is false when the
JS function exits by throwing. β stands for the SinkDocument payload
type. -/

/-- One observable event of the upload pipeline. -/
inductive Ev (β : Type) where
  | upl (docs : List β) (ok : Bool)
  | sleep (ms : Nat)
deriving DecidableEq, Repr

/-- The uploadBatch calls of a trace, in order: the document list passed
and whether the call succeeded. -/
def uploads : List (Ev β) → List (List β × Bool)
  | [] => []
  | .upl d ok :: rest => (d, ok) :: uploads rest
  | .sleep _ :: rest => uploads rest

/-- The delays of a trace, in order, in milliseconds. -/
def sleeps : List (Ev β) → List Nat
  | [] => []
  | .upl _ _ :: rest => sleeps rest
  | .sleep ms :: rest => ms :: sleeps rest

theorem uploads_append (l1 l2 : List (Ev β)) :
    uploads (l1 ++ l2) = uploads l1 ++ uploads l2 := by
  induction l1 with
  | nil => rfl
  | cons e rest ih =>
    match e with
    | .upl d ok => simp [uploads, ih]
    | .sleep ms => simp [uploads, ih]

theorem sleeps_append (l1 l2 : List (Ev β)) :
    sleeps (l1 ++ l2) = sleeps l1 ++ sleeps l2 := by
  induction l1 with
  | nil => rfl
  | cons e rest ih =>
    match e with
    | .upl d ok => simp [sleeps, ih]
    | .sleep ms => simp [sleeps, ih]

/-- The for-loop of retryBatch (lines 392-410), embedded by recursion on
the number of remaining iterations. attempt is the JS loop variable, n the
global upload-call counter. Each iteration awaits
delay(baseDelay * 2 ^ (attempt - 1)) and then uploadBatch(batch); a
success returns from the function, a failure on the final attempt
re-throws (third component false), and when the iteration budget is
exhausted without entering the loop body the function falls through and
returns normally (third component true, the maxRetries = 0 case). -/
def retryLoop (okf : Nat → Bool) (batch : List β) (baseDelay : Nat) :
    Nat → Nat → Nat → List (Ev β) × Nat × Bool
  | 0, _, n => ([], n, true)
  | r + 1, attempt, n =>
    let d := baseDelay * 2 ^ (attempt - 1)
    if okf n then ([.sleep d, .upl batch true], n + 1, true)
    else if r = 0 then ([.sleep d, .upl batch false], n + 1, false)
    else
      let rest := retryLoop okf batch baseDelay r (attempt + 1) (n + 1)
      (.sleep d :: .upl batch false :: rest.1, rest.2.1, rest.2.2)

/-- PluginManager.retryBatch (lines 388-411): the loop runs attempt =
1 .. maxRetries. -/
def retryBatch (okf : Nat → Bool) (maxRetries baseDelay : Nat)
    (batch : List β) (n : Nat) : List (Ev β) × Nat × Bool :=
  retryLoop okf batch baseDelay maxRetries 1 n

/-- PluginManager.processBatches (lines 326-352), one batch per
iteration: try uploadBatch; on success sleep 1000ms unless this was the
last batch; on a raised error run retryBatch, and continue with the next
batch only if retryBatch returned normally. -/
def processBatches (okf : Nat → Bool) (maxRetries baseDelay : Nat) :
    List (List β) → Nat → List (Ev β) × Nat × Bool
  | [], n => ([], n, true)
  | b :: rest, n =>
    if okf n then
      let tail := processBatches okf maxRetries baseDelay rest (n + 1)
      (.upl b true :: ((if rest.isEmpty then [] else [.sleep 1000]) ++ tail.1),
        tail.2.1, tail.2.2)
    else
      let r := retryBatch okf maxRetries baseDelay b (n + 1)
      if r.2.2 then
        let tail := processBatches okf maxRetries baseDelay rest r.2.1
        (.upl b false :: (r.1 ++ tail.1), tail.2.1, tail.2.2)
      else
        (.upl b false :: r.1, r.2.1, false)

/-- Expected retryBatch trace when the first k in-loop attempts fail and
attempt k+1 succeeds; e is the exponent of the first backoff delay. -/
def retryEvsOk (batch : List β) (baseDelay : Nat) : Nat → Nat → List (Ev β)
  | 0, e => [.sleep (baseDelay * 2 ^ e), .upl batch true]
  | k + 1, e =>
    .sleep (baseDelay * 2 ^ e) :: .upl batch false ::
      retryEvsOk batch baseDelay k (e + 1)

/-- Expected retryBatch trace when all r in-loop attempts fail. -/
def retryEvsFail (batch : List β) (baseDelay : Nat) : Nat → Nat → List (Ev β)
  | 0, _ => []
  | k + 1, e =>
    .sleep (baseDelay * 2 ^ e) :: .upl batch false ::
      retryEvsFail batch baseDelay k (e + 1)

theorem retryLoop_success (okf : Nat → Bool) (batch : List β) (bD : Nat) :
    ∀ (k r a n : Nat), k < r → 1 ≤ a →
      (∀ j, j < k → okf (n + j) = false) → okf (n + k) = true →
      retryLoop okf batch bD r a n
        = (retryEvsOk batch bD k (a - 1), n + k + 1, true) := by
  intro k
  induction k with
  | zero =>
    intro r a n hkr ha hfail hok
    match r with
    | r + 1 =>
      unfold retryLoop
      rw [if_pos (by simpa using hok)]
      rfl
  | succ k ih =>
    intro r a n hkr ha hfail hok
    match r with
    | r + 1 =>
      unfold retryLoop
      have h0 : okf n = false := by
        have := hfail 0 (by omega)
        simpa using this
      rw [if_neg (by rw [h0]; simp), if_neg (show ¬(r = 0) by omega)]
      rw [ih r (a + 1) (n + 1) (by omega) (by omega)
        (fun j hj => by
          have h := hfail (j + 1) (by omega)
          have he2 : n + (j + 1) = n + 1 + j := by omega
          rwa [he2] at h)
        (by
          have he2 : n + 1 + k = n + (k + 1) := by omega
          rw [he2]
          exact hok)]
      have he : a + 1 - 1 = a - 1 + 1 := by omega
      have hn : n + 1 + k + 1 = n + (k + 1) + 1 := by omega
      rw [he, hn]
      rfl

theorem retryLoop_all_fail (okf : Nat → Bool) (batch : List β) (bD : Nat) :
    ∀ (r a n : Nat), 1 ≤ r → 1 ≤ a →
      (∀ j, j < r → okf (n + j) = false) →
      retryLoop okf batch bD r a n
        = (retryEvsFail batch bD r (a - 1), n + r, false) := by
  intro r
  induction r with
  | zero => intro a n hr; omega
  | succ r ih =>
    intro a n hr ha hfail
    unfold retryLoop
    have h0 : okf n = false := by
      have := hfail 0 (by omega)
      simpa using this
    rw [if_neg (by rw [h0]; simp)]
    match r with
    | 0 =>
      rw [if_pos rfl]
      rfl
    | r + 1 =>
      rw [if_neg (show ¬(r + 1 = 0) by omega)]
      rw [ih (a + 1) (n + 1) (by omega) (by omega)
        (fun j hj => by
          have h := hfail (j + 1) (by omega)
          have he2 : n + (j + 1) = n + 1 + j := by omega
          rwa [he2] at h)]
      have he : a + 1 - 1 = a - 1 + 1 := by omega
      have hn : n + 1 + (r + 1) = n + (r + 1 + 1) := by omega
      rw [he, hn]
      rfl

theorem uploads_retryEvsOk (batch : List β) (bD : Nat) :
    ∀ (k e : Nat), uploads (retryEvsOk batch bD k e)
      = List.replicate k (batch, false) ++ [(batch, true)] := by
  intro k
  induction k with
  | zero => intro e; rfl
  | succ k ih =>
    intro e
    show (batch, false) :: uploads (retryEvsOk batch bD k (e + 1)) = _
    rw [ih (e + 1)]
    rfl

theorem sleeps_retryEvsOk (batch : List β) (bD : Nat) :
    ∀ (k e : Nat), sleeps (retryEvsOk batch bD k e)
      = (List.range (k + 1)).map (fun j => bD * 2 ^ (e + j)) := by
  intro k
  induction k with
  | zero =>
    intro e
    show [bD * 2 ^ e] = _
    simp [List.range_succ]
  | succ k ih =>
    intro e
    show bD * 2 ^ e :: sleeps (retryEvsOk batch bD k (e + 1)) = _
    rw [ih (e + 1)]
    have hr : List.range (k + 1 + 1) = 0 :: (List.range (k + 1)).map Nat.succ :=
      List.range_succ_eq_map (k + 1)
    have htail : List.map (fun j => bD * 2 ^ (e + 1 + j)) (List.range (k + 1))
        = List.map ((fun j => bD * 2 ^ (e + j)) ∘ Nat.succ) (List.range (k + 1)) := by
      apply List.map_congr_left
      intro j hj
      simp only [Function.comp_apply]
      have hexp : e + 1 + j = e + j.succ := by omega
      rw [hexp]
    rw [htail, hr, List.map_cons, List.map_map]
    rfl

theorem uploads_retryEvsFail (batch : List β) (bD : Nat) :
    ∀ (r e : Nat), uploads (retryEvsFail batch bD r e)
      = List.replicate r (batch, false) := by
  intro r
  induction r with
  | zero => intro e; rfl
  | succ r ih =>
    intro e
    show (batch, false) :: uploads (retryEvsFail batch bD r (e + 1)) = _
    rw [ih (e + 1)]
    rfl

theorem pairwise_lt_backoff (bD e : Nat) (hbD : 0 < bD) (m : Nat) :
    ((List.range m).map (fun j => bD * 2 ^ (e + j))).Pairwise (· < ·) := by
  rw [List.pairwise_map]
  apply List.Pairwise.imp ?_ (List.pairwise_lt_range m)
  intro i j hij
  exact mul_lt_mul_of_pos_left
    (Nat.pow_lt_pow_right (by norm_num) (by omega)) hbD

theorem processBatches_nil_eq (okf : Nat → Bool) (mR bD n : Nat) :
    processBatches okf mR bD ([] : List (List β)) n = ([], n, true) := rfl

theorem processBatches_cons_eq (okf : Nat → Bool) (mR bD : Nat)
    (b : List β) (rest : List (List β)) (n : Nat) :
    processBatches okf mR bD (b :: rest) n =
      if okf n then
        (.upl b true :: ((if rest.isEmpty then [] else [.sleep 1000])
            ++ (processBatches okf mR bD rest (n + 1)).1),
          (processBatches okf mR bD rest (n + 1)).2.1,
          (processBatches okf mR bD rest (n + 1)).2.2)
      else if (retryBatch okf mR bD b (n + 1)).2.2 then
        (.upl b false :: ((retryBatch okf mR bD b (n + 1)).1
            ++ (processBatches okf mR bD rest (retryBatch okf mR bD b (n + 1)).2.1).1),
          (processBatches okf mR bD rest (retryBatch okf mR bD b (n + 1)).2.1).2.1,
          (processBatches okf mR bD rest (retryBatch okf mR bD b (n + 1)).2.1).2.2)
      else
        (.upl b false :: (retryBatch okf mR bD b (n + 1)).1,
          (retryBatch okf mR bD b (n + 1)).2.1, false) := rfl

/-- A prefix of batches that all succeed on their first attempt, followed
by a non-empty remainder: each such batch contributes one successful
upload and the 1000ms inter-batch delay, and processing continues with
the remainder. -/
theorem processBatches_good_prefix (okf : Nat → Bool) (mR bD : Nat) :
    ∀ (gs rest : List (List β)) (n : Nat), rest ≠ [] →
      (∀ j, j < gs.length → okf (n + j) = true) →
      processBatches okf mR bD (gs ++ rest) n
        = ((gs.flatMap fun g => [.upl g true, .sleep 1000])
            ++ (processBatches okf mR bD rest (n + gs.length)).1,
           (processBatches okf mR bD rest (n + gs.length)).2.1,
           (processBatches okf mR bD rest (n + gs.length)).2.2) := by
  intro gs
  induction gs with
  | nil =>
    intro rest n hrest hgood
    simp
  | cons g gs ih =>
    intro rest n hrest hgood
    show processBatches okf mR bD (g :: (gs ++ rest)) n = _
    rw [processBatches_cons_eq, if_pos (by have := hgood 0 (by simp); simpa using this)]
    have hne : (gs ++ rest).isEmpty = false := by
      rw [List.isEmpty_eq_false]
      intro hcon
      exact hrest (List.append_eq_nil.mp hcon).2
    rw [hne]
    rw [ih rest (n + 1) hrest
      (fun j hj => by
        have h := hgood (j + 1) (by simp; omega)
        have he : n + (j + 1) = n + 1 + j := by omega
        rwa [he] at h)]
    have hc : n + 1 + gs.length = n + (g :: gs).length := by simp; omega
    rw [hc]
    simp only [Bool.false_eq_true, if_false, List.flatMap_cons, List.cons_append,
      List.nil_append, List.append_assoc, List.singleton_append]

/-- A batch whose initial upload and all maxRetries in-loop retries fail:
the error from the last retry propagates, processing stops with the
failure trace and no later batch is touched. -/
theorem processBatches_head_fails (okf : Nat → Bool) (mR bD : Nat)
    (b : List β) (rest : List (List β)) (n : Nat)
    (hmR : 1 ≤ mR) (h0 : okf n = false)
    (hfail : ∀ j, j < mR → okf (n + 1 + j) = false) :
    processBatches okf mR bD (b :: rest) n
      = (.upl b false :: retryEvsFail b bD mR 0, n + 1 + mR, false) := by
  have hretry : retryBatch okf mR bD b (n + 1)
      = (retryEvsFail b bD mR 0, n + 1 + mR, false) := by
    unfold retryBatch
    have h := retryLoop_all_fail okf b bD mR 1 (n + 1) hmR (le_refl 1) hfail
    simpa using h
  rw [processBatches_cons_eq, if_neg (by rw [h0]; simp), hretry]
  rfl

/-- Every upload the retry loop performs passes exactly the batch value it
was given. -/
theorem retryLoop_uploads_same (okf : Nat → Bool) (batch : List β) (bD : Nat) :
    ∀ (r a n : Nat), ∀ p ∈ uploads (retryLoop okf batch bD r a n).1, p.1 = batch := by
  intro r
  induction r with
  | zero => intro a n p hp; simp [retryLoop, uploads] at hp
  | succ r ih =>
    intro a n p hp
    unfold retryLoop at hp
    by_cases hok : okf n
    · rw [if_pos hok] at hp
      simp [uploads] at hp
      rw [hp]
    · rw [if_neg hok] at hp
      by_cases hr : r = 0
      · rw [if_pos hr] at hp
        simp [uploads] at hp
        rw [hp]
      · rw [if_neg hr] at hp
        simp only [uploads, List.mem_cons] at hp
        rcases hp with hp | hp
        · rw [hp]
        · exact ih (a + 1) (n + 1) p hp

/-- Every upload processBatches performs passes one of the batches it was
given; no other document list is ever sent. -/
theorem processBatches_uploads_mem (okf : Nat → Bool) (mR bD : Nat) :
    ∀ (bs : List (List β)) (n : Nat),
      ∀ p ∈ uploads (processBatches okf mR bD bs n).1, p.1 ∈ bs := by
  intro bs
  induction bs with
  | nil => intro n p hp; simp [processBatches, uploads] at hp
  | cons b rest ih =>
    intro n p hp
    rw [processBatches_cons_eq] at hp
    by_cases hok : okf n
    · rw [if_pos hok] at hp
      have key : uploads (Ev.upl b true ::
          ((if rest.isEmpty then [] else [Ev.sleep 1000])
            ++ (processBatches okf mR bD rest (n + 1)).1))
          = (b, true) :: uploads (processBatches okf mR bD rest (n + 1)).1 := by
        by_cases hre : rest.isEmpty
        · rw [if_pos hre]
          rfl
        · rw [if_neg hre]
          rfl
      rw [key] at hp
      rcases List.mem_cons.mp hp with hp | hp
      · rw [hp]; simp
      · exact List.mem_cons_of_mem b (ih (n + 1) p hp)
    · rw [if_neg hok] at hp
      by_cases hres : (retryBatch okf mR bD b (n + 1)).2.2
      · rw [if_pos hres] at hp
        simp only [uploads, List.mem_cons] at hp
        rcases hp with hp | hp
        · rw [hp]; simp
        · rw [uploads_append] at hp
          rcases List.mem_append.mp hp with hp | hp
          · have := retryLoop_uploads_same okf b bD mR 1 (n + 1) p hp
            rw [this]; simp
          · exact List.mem_cons_of_mem b
              (ih (retryBatch okf mR bD b (n + 1)).2.1 p hp)
      · rw [if_neg hres] at hp
        simp only [uploads, List.mem_cons] at hp
        rcases hp with hp | hp
        · rw [hp]; simp
        · have := retryLoop_uploads_same okf b bD mR 1 (n + 1) p hp
          rw [this]; simp

/-! ## Source Client: DataSourceConnector.fetchAll, fetchPage

JS source (dataSourceConnector.js, lines 78-136). fetchPage normalizes
the upstream response into an object with a documents list, a hasMore
boolean (already resolved through the JS or-chains of line 127-129) and
a totalCount; it is modeled as an oracle fp from page numbers to either
a raised error or that normalized object. fetchAll is the while(hasMore)
loop, embedded with fuel; alongside the outcome the embedding records the
list of page numbers passed to fetchPage, in call order. -/

/-- The object fetchPage resolves with. δ is the raw-document type. -/
structure PageData (δ : Type) where
  documents : List δ
  hasMore : Bool
  totalCount : Nat
deriving DecidableEq, Repr

/-- Outcome of fetchAll: the concatenated documents, a propagated
fetchPage error, or fuel exhaustion (the loop still running). -/
inductive FetchOutcome (δ ε : Type) where
  | ok (docs : List δ)
  | fetchErr (e : ε)
  | diverge
deriving DecidableEq, Repr

/-- The while(hasMore) loop of fetchAll: documents of a non-empty page
are appended and the page counter advances while hasMore is truthy; a
page with no documents, or a falsy hasMore, ends the loop; a fetchPage
error propagates. Returns the outcome and the pages requested. -/
def fetchAllLoop (fp : Nat → Except ε (PageData δ)) :
    Nat → Nat → List δ → FetchOutcome δ ε × List Nat
  | 0, _, _ => (.diverge, [])
  | fuel + 1, page, acc =>
    match fp page with
    | .error e => (.fetchErr e, [page])
    | .ok pd =>
      if pd.documents.length > 0 then
        if pd.hasMore then
          let r := fetchAllLoop fp fuel (page + 1) (acc ++ pd.documents)
          (r.1, page :: r.2)
        else (.ok (acc ++ pd.documents), [page])
      else (.ok acc, [page])

/-- DataSourceConnector.fetchAll (lines 78-110): the loop starts at page 1
with an empty accumulator. -/
def fetchAll (fp : Nat → Except ε (PageData δ)) (fuel : Nat) :
    FetchOutcome δ ε × List Nat :=
  fetchAllLoop fp fuel 1 []

/-- Unfolding lemma for a fetchAllLoop step whose fetchPage succeeds. -/
theorem fetchAllLoop_eq_ok (fp : Nat → Except ε (PageData δ)) (pd : PageData δ)
    (fuel page : Nat) (acc : List δ) (h : fp page = .ok pd) :
    fetchAllLoop fp (fuel + 1) page acc =
      if pd.documents.length > 0 then
        if pd.hasMore then
          ((fetchAllLoop fp fuel (page + 1) (acc ++ pd.documents)).1,
            page :: (fetchAllLoop fp fuel (page + 1) (acc ++ pd.documents)).2)
        else (.ok (acc ++ pd.documents), [page])
      else (.ok acc, [page]) := by
  conv_lhs => unfold fetchAllLoop
  rw [h]

/-- Unfolding lemma for a fetchAllLoop step whose fetchPage raises. -/
theorem fetchAllLoop_eq_err (fp : Nat → Except ε (PageData δ)) (e : ε)
    (fuel page : Nat) (acc : List δ) (h : fp page = .error e) :
    fetchAllLoop fp (fuel + 1) page acc = (.fetchErr e, [page]) := by
  unfold fetchAllLoop
  rw [h]

/-- Characterization of a terminating fetchAll run: pages p .. p+m-2 are
good (non-empty, hasMore), page p+m-1 stops the loop, so the loop visits
exactly the m pages p .. p+m-1 and returns the accumulated documents. -/
theorem fetchAllLoop_stops (fp : Nat → Except ε (PageData δ))
    (pds : Nat → PageData δ) :
    ∀ (m p fuel : Nat) (acc : List δ), 1 ≤ m → m ≤ fuel →
      (∀ i, p ≤ i → i ≤ p + m - 1 → fp i = .ok (pds i)) →
      (∀ i, p ≤ i → i < p + m - 1 →
        (pds i).documents ≠ [] ∧ (pds i).hasMore = true) →
      ((pds (p + m - 1)).documents = [] ∨ (pds (p + m - 1)).hasMore = false) →
      fetchAllLoop fp fuel p acc
        = (.ok (acc ++ (List.range' p m).flatMap fun i => (pds i).documents),
           List.range' p m) := by
  intro m
  induction m with
  | zero => intro p fuel acc hm; omega
  | succ m ih =>
    intro p fuel acc hm hfuel hok hgood hstop
    match fuel with
    | fuel + 1 =>
      match m with
      | 0 =>
        have hp1 : p + (0 + 1) - 1 = p := by omega
        rw [hp1] at hstop
        rw [fetchAllLoop_eq_ok fp (pds p) fuel p acc (hok p (by omega) (by omega))]
        rcases hstop with hd | hm2
        · rw [if_neg (by rw [hd]; simp)]
          simp [List.range', hd]
        · by_cases hd : (pds p).documents.length > 0
          · rw [if_pos hd, if_neg (by rw [hm2]; simp)]
            simp [List.range']
          · rw [if_neg hd]
            have hnil : (pds p).documents = [] := by
              rcases hh : (pds p).documents with _ | ⟨x, xs⟩
              · rfl
              · rw [hh] at hd
                simp at hd
            simp [List.range', hnil]
      | m + 1 =>
        have hgp := hgood p (by omega) (by omega)
        have hdpos : (pds p).documents.length > 0 := by
          rcases hh : (pds p).documents with _ | ⟨x, xs⟩
          · exact absurd hh hgp.1
          · simp
        rw [fetchAllLoop_eq_ok fp (pds p) fuel p acc (hok p (by omega) (by omega)),
          if_pos hdpos, if_pos hgp.2]
        rw [ih (p + 1) fuel (acc ++ (pds p).documents) (by omega) (by omega)
          (fun i h1 h2 => hok i (by omega) (by omega))
          (fun i h1 h2 => hgood i (by omega) (by omega))
          (by
            have he : p + 1 + (m + 1) - 1 = p + (m + 1 + 1) - 1 := by omega
            rw [he]
            exact hstop)]
        have hr : List.range' p (m + 1 + 1) = p :: List.range' (p + 1) (m + 1) :=
          List.range'_succ p (m + 1) 1
        rw [hr]
        simp

/-- Characterization of a failing fetchAll run: pages p .. p+m-1 are good,
fetchPage for page p+m raises, the error propagates and the loop visited
pages p .. p+m. -/
theorem fetchAllLoop_err (fp : Nat → Except ε (PageData δ))
    (pds : Nat → PageData δ) (e : ε) :
    ∀ (m p fuel : Nat) (acc : List δ), m + 1 ≤ fuel →
      (∀ i, p ≤ i → i < p + m →
        fp i = .ok (pds i) ∧ (pds i).documents ≠ [] ∧ (pds i).hasMore = true) →
      fp (p + m) = .error e →
      (fetchAllLoop fp fuel p acc).1 = .fetchErr e ∧
      (fetchAllLoop fp fuel p acc).2 = List.range' p (m + 1) := by
  intro m
  induction m with
  | zero =>
    intro p fuel acc hfuel hgood herr
    match fuel with
    | fuel + 1 =>
      rw [show p + 0 = p by omega] at herr
      rw [fetchAllLoop_eq_err fp e fuel p acc herr]
      simp [List.range']
  | succ m ih =>
    intro p fuel acc hfuel hgood herr
    match fuel with
    | fuel + 1 =>
      have hgp := hgood p (by omega) (by omega)
      have hdpos : (pds p).documents.length > 0 := by
        rcases hh : (pds p).documents with _ | ⟨x, xs⟩
        · exact absurd hh hgp.2.1
        · simp
      rw [fetchAllLoop_eq_ok fp (pds p) fuel p acc hgp.1, if_pos hdpos,
        if_pos hgp.2.2]
      have hrec := ih (p + 1) fuel (acc ++ (pds p).documents) (by omega)
        (fun i h1 h2 => hgood i (by omega) (by omega))
        (by rw [show p + 1 + m = p + (m + 1) by omega]; exact herr)
      refine ⟨hrec.1, ?_⟩
      have hr : List.range' p (m + 1 + 1) = p :: List.range' (p + 1) (m + 1) :=
        List.range'_succ p (m + 1) 1
      rw [hr]
      simp [hrec.2]

/-! ## Sync Orchestrator: PluginManager.sync

JS source (dataSourceConnector.js, lines 231-254): fetch all raw
documents, transform each (fetchDocuments, lines 259-272), return
immediately when the transformed list is empty, otherwise batch and
process. The sink identifiers only parameterize the uploadBatch call and
are not modeled; upload outcomes come from the oracle okf starting at
global call count 0. -/

/-- Result of one sync run. -/
inductive SyncResult (ε : Type) where
  | ok (evs : List (Ev SinkDocument))
  | fetchErr (e : ε)
  | uploadErr (evs : List (Ev SinkDocument))
  | diverge
deriving DecidableEq, Repr

/-- PluginManager.sync composed from the embedded parts. -/
def sync (fp : Nat → Except ε (PageData RawDocument)) (fuel : Nat)
    (ctx : TransformCtx) (okf : Nat → Bool) (mR bD batchSize : Nat) :
    SyncResult ε :=
  match (fetchAll fp fuel).1 with
  | .diverge => .diverge
  | .fetchErr e => .fetchErr e
  | .ok rawDocs =>
    let documents := rawDocs.map (transformDocument ctx)
    if documents.length = 0 then .ok []
    else
      let r := processBatches okf mR bD (createBatches batchSize documents) 0
      if r.2.2 then .ok r.1 else .uploadErr r.1

/-! ## Claim theorems -/

/-- C1: for every document list D and positive integer batch size s, the
createBatches loop finishes (first conjunct ties it to the recursive
chunking), concatenating the batches in order gives back D, the number of
batches is ceil(len(D)/s), every batch except possibly the last has
exactly s elements, and every batch is non-empty with at most s
elements. -/
theorem claim_C1_createBatches (docs : List α) (s : Nat) (hs : 1 ≤ s) :
    createBatchesLoop docs (s : Int) (docs.length + 1) 0 []
        = some (createBatches s docs) ∧
    (createBatches s docs).flatten = docs ∧
    (createBatches s docs).length = (docs.length + s - 1) / s ∧
    (∀ i, i < (createBatches s docs).length - 1 →
      ((createBatches s docs).getD i []).length = s) ∧
    (∀ b ∈ createBatches s docs, b ≠ [] ∧ b.length ≤ s) := by
  refine ⟨?_, ?_, ?_, ?_, ?_⟩
  · have h := createBatchesLoop_eq s hs docs (docs.length + 1) 0 [] (by omega)
    simpa using h
  · exact createBatches_flatten s hs docs.length docs (le_refl _)
  · exact createBatches_length s hs docs.length docs (le_refl _)
  · exact createBatches_sizes s hs docs.length docs (le_refl _)
  · exact createBatches_mem s hs docs.length docs (le_refl _)

theorem claim_C1_createBatches_witness :
    createBatchesLoop ([10, 20, 30, 40, 50] : List Nat) ((2 : Nat) : Int)
        (([10, 20, 30, 40, 50] : List Nat).length + 1) 0 []
        = some (createBatches 2 [10, 20, 30, 40, 50]) ∧
    (createBatches 2 ([10, 20, 30, 40, 50] : List Nat)).flatten
        = [10, 20, 30, 40, 50] ∧
    (createBatches 2 ([10, 20, 30, 40, 50] : List Nat)).length
        = (([10, 20, 30, 40, 50] : List Nat).length + 2 - 1) / 2 ∧
    (∀ i, i < (createBatches 2 ([10, 20, 30, 40, 50] : List Nat)).length - 1 →
      ((createBatches 2 ([10, 20, 30, 40, 50] : List Nat)).getD i []).length = 2) ∧
    (∀ b ∈ createBatches 2 ([10, 20, 30, 40, 50] : List Nat),
      b ≠ [] ∧ b.length ≤ 2) :=
  claim_C1_createBatches [10, 20, 30, 40, 50] 2 (by decide)

/-- C10: with a positive batch size the createBatches loop finishes on
every input once the fuel exceeds the list length; with a nonpositive
batch size and a non-empty input no amount of fuel finishes the loop (the
index never advances past the list), so neither a result nor an error is
ever produced. -/
theorem claim_C10_createBatches_termination (docs : List α) (bs : Int) :
    (1 ≤ bs → ∀ fuel, docs.length < fuel →
      ∃ r, createBatchesLoop docs bs fuel 0 [] = some r) ∧
    (docs ≠ [] → bs ≤ 0 → ∀ fuel, createBatchesLoop docs bs fuel 0 [] = none) := by
  constructor
  · intro hbs fuel hfuel
    have hbn : bs = ((bs.toNat : Nat) : Int) := by omega
    refine ⟨createBatches bs.toNat docs, ?_⟩
    have h := createBatchesLoop_eq bs.toNat (by omega) docs fuel 0 [] (by omega)
    rw [List.drop_zero, List.nil_append] at h
    rw [hbn]
    exact h
  · intro hne hbs fuel
    exact createBatchesLoop_diverges docs bs hne hbs fuel 0 [] (le_refl 0)

theorem claim_C10_witness :
    (∃ r, createBatchesLoop ([1, 2, 3] : List Nat) (2 : Int) 4 0 [] = some r) ∧
    createBatchesLoop ([1, 2, 3] : List Nat) (-1 : Int) 7 0 [] = none :=
  ⟨(claim_C10_createBatches_termination [1, 2, 3] 2).1 (by decide) 4 (by decide),
   (claim_C10_createBatches_termination [1, 2, 3] (-1)).2 (by decide) (by decide) 7⟩

/-- C4: transformDocument is total. For every RawDocument, including one
with every field absent, the result has a non-empty id, a non-empty title
following the title/name/Untitled fallback, content bytes equal to the
UTF-8 encoding of the content/body fallback (empty when both are absent),
the fixed plain-text content type, and the three mandatory attributes
populated with their url/source and createdAt/updatedAt/current-time
fallbacks. -/
theorem claim_C4_transformDocument_total (ctx : TransformCtx)
    (document : RawDocument) :
    (transformDocument ctx document).id ≠ "" ∧
    (transformDocument ctx document).title ≠ "" ∧
    (transformDocument ctx document).title
      = jsOrS document.title (jsOrS document.name "Untitled") ∧
    (transformDocument ctx document).contentBlob
      = utf8Bytes (jsOrS document.content (jsOrS document.body "")) ∧
    (transformDocument ctx document).contentType = "PLAIN_TEXT" ∧
    (transformDocument ctx document).attributes.sourceUri
      = jsOrS document.url (jsOrS document.srcField "") ∧
    (transformDocument ctx document).attributes.createdAt
      = jsOrS document.createdAt ctx.nowIso ∧
    (transformDocument ctx document).attributes.updatedAt
      = jsOrS document.updatedAt ctx.nowIso := by
  refine ⟨?_, ?_, rfl, rfl, rfl, rfl, rfl, rfl⟩
  · exact jsOrS_ne_empty _ _ (generateDocumentId_ne_empty ctx document)
  · exact jsOrS_ne_empty _ _ (jsOrS_ne_empty _ _ (by decide))

/-- Concrete transformer context for the closed evaluations below: a
plugin name, fixed clock readings and a fixed content-hash function. -/
def ctxEx : TransformCtx :=
  { pluginName := "custom-plugin"
    nowMs := 1700000000000
    nowIso := "2023-11-14T22:13:20.000Z"
    hash8 := fun _ => "0a1b2c3d" }

/-- A raw document whose id field is present with the empty string as its
value, every other field absent. -/
def docEmptyId : RawDocument := { RawDocument.empty with id := some "" }

/-- C5 counterexample: an explicit id whose value is the empty string is
JS-falsy, so transformDocument does not preserve it: a fresh id is
generated instead, refuting preservation for an explicit id of any
value. -/
theorem claim_C5_counterexample :
    docEmptyId.id = some "" ∧
    (transformDocument ctxEx docEmptyId).id ≠ "" ∧
    (transformDocument ctxEx docEmptyId).id
      = generateDocumentId ctxEx docEmptyId := by
  refine ⟨rfl, by decide, rfl⟩

/-- C5 amended: for every RawDocument whose id is present and non-empty,
transformDocument preserves that id exactly; no new id is generated. -/
theorem claim_C5_amended_preserves_id (ctx : TransformCtx)
    (document : RawDocument) (s : String)
    (hid : document.id = some s) (hs : s ≠ "") :
    (transformDocument ctx document).id = s := by
  show jsOrS document.id (generateDocumentId ctx document) = s
  rw [hid]
  show (if s = "" then _ else s) = s
  rw [if_neg hs]

/-- A raw document with an explicit non-empty id. -/
def docWithId : RawDocument := { RawDocument.empty with id := some "doc-42" }

theorem claim_C5_amended_witness :
    (transformDocument ctxEx docWithId).id = "doc-42" :=
  claim_C5_amended_preserves_id ctxEx docWithId "doc-42" rfl (by decide)

/-- C2: if uploadBatch raises on the first k attempts made inside
retryBatch and succeeds on the next, with k below maxRetries, retryBatch
returns normally with the trace retryEvsOk, in which every upload is
immediately preceded by its backoff delay; it makes exactly k+1 upload
calls, the delays are baseDelay * 2 ^ (attempt - 1) for attempts 1..k+1,
and (baseDelay being positive) they strictly increase. -/
theorem claim_C2_retryBatch_success (okf : Nat → Bool) (batch : List β)
    (mR bD k n : Nat) (hk : k < mR) (hbD : 0 < bD)
    (hfail : ∀ j, j < k → okf (n + j) = false) (hok : okf (n + k) = true) :
    retryBatch okf mR bD batch n = (retryEvsOk batch bD k 0, n + k + 1, true) ∧
    (uploads (retryEvsOk batch bD k 0)).length = k + 1 ∧
    sleeps (retryEvsOk batch bD k 0)
      = (List.range (k + 1)).map (fun j => bD * 2 ^ j) ∧
    (sleeps (retryEvsOk batch bD k 0)).Pairwise (· < ·) := by
  refine ⟨?_, ?_, ?_, ?_⟩
  · unfold retryBatch
    have h := retryLoop_success okf batch bD k mR 1 n hk (le_refl 1) hfail hok
    simpa using h
  · rw [uploads_retryEvsOk]
    simp
  · rw [sleeps_retryEvsOk]
    apply List.map_congr_left
    intro j hj
    rw [Nat.zero_add]
  · rw [sleeps_retryEvsOk]
    exact pairwise_lt_backoff bD 0 hbD (k + 1)

theorem claim_C2_witness :
    retryBatch (fun i => decide (2 ≤ i)) 3 5 ([7] : List Nat) 0
        = (retryEvsOk [7] 5 2 0, 0 + 2 + 1, true) ∧
    (uploads (retryEvsOk ([7] : List Nat) 5 2 0)).length = 2 + 1 ∧
    sleeps (retryEvsOk ([7] : List Nat) 5 2 0)
      = (List.range (2 + 1)).map (fun j => 5 * 2 ^ j) ∧
    (sleeps (retryEvsOk ([7] : List Nat) 5 2 0)).Pairwise (· < ·) :=
  claim_C2_retryBatch_success (fun i => decide (2 ≤ i)) [7] 3 5 2 0
    (by decide) (by decide) (by decide) (by decide)

theorem uploads_good_flatMap (gs : List (List β)) :
    uploads (gs.flatMap fun g => [Ev.upl g true, Ev.sleep 1000])
      = gs.map fun g => (g, true) := by
  induction gs with
  | nil => rfl
  | cons g gs ih =>
    rw [List.flatMap_cons, uploads_append, ih]
    rfl

/-- C3: when the initial upload of a batch and all maxRetries retry
attempts fail, the run makes exactly maxRetries upload calls inside
retryBatch (after the one initial call in processBatches), the last error
propagates out (third component false), and the batches after the failing
one are never uploaded; the successful uploads of the earlier batches
stay in the trace, and the model has no rollback event at all. -/
theorem claim_C3_retry_exhaustion (okf : Nat → Bool) (mR bD : Nat)
    (gs : List (List β)) (b : List β) (rest : List (List β)) (n : Nat)
    (hmR : 1 ≤ mR)
    (hgood : ∀ j, j < gs.length → okf (n + j) = true)
    (hbad : ∀ j, j < mR + 1 → okf (n + gs.length + j) = false) :
    processBatches okf mR bD (gs ++ b :: rest) n
      = ((gs.flatMap fun g => [.upl g true, .sleep 1000])
          ++ .upl b false :: retryEvsFail b bD mR 0,
         n + gs.length + 1 + mR, false) ∧
    uploads (processBatches okf mR bD (gs ++ b :: rest) n).1
      = gs.map (fun g => (g, true)) ++ List.replicate (mR + 1) (b, false) := by
  have hhead := processBatches_head_fails okf mR bD b rest (n + gs.length) hmR
    (by have := hbad 0 (by omega); simpa using this)
    (fun j hj => by
      have h := hbad (j + 1) (by omega)
      have he : n + gs.length + (j + 1) = n + gs.length + 1 + j := by omega
      rwa [he] at h)
  have hpre := processBatches_good_prefix okf mR bD gs (b :: rest) n
    (by simp) hgood
  have hmain : processBatches okf mR bD (gs ++ b :: rest) n
      = ((gs.flatMap fun g => [.upl g true, .sleep 1000])
          ++ .upl b false :: retryEvsFail b bD mR 0,
         n + gs.length + 1 + mR, false) := by
    rw [hpre, hhead]
  refine ⟨hmain, ?_⟩
  rw [hmain]
  show uploads ((gs.flatMap fun g => [Ev.upl g true, Ev.sleep 1000])
      ++ Ev.upl b false :: retryEvsFail b bD mR 0) = _
  rw [uploads_append, uploads_good_flatMap]
  show gs.map (fun g => (g, true))
      ++ (b, false) :: uploads (retryEvsFail b bD mR 0) = _
  rw [uploads_retryEvsFail, ← List.replicate_succ]

theorem claim_C3_witness :
    processBatches (fun i => decide (i = 0)) 2 7
        ([[1]] ++ [2] :: [[3]] : List (List Nat)) 0
      = ((([[1]] : List (List Nat)).flatMap
            fun g => [.upl g true, .sleep 1000])
          ++ .upl [2] false :: retryEvsFail [2] 7 2 0,
         0 + ([[1]] : List (List Nat)).length + 1 + 2, false) ∧
    uploads (processBatches (fun i => decide (i = 0)) 2 7
        ([[1]] ++ [2] :: [[3]] : List (List Nat)) 0).1
      = ([[1]] : List (List Nat)).map (fun g => (g, true))
          ++ List.replicate (2 + 1) ([2], false) :=
  claim_C3_retry_exhaustion (fun i => decide (i = 0)) 2 7 [[1]] [2] [[3]] 0
    (by decide) (by decide) (by decide)

/-- C6: every upload call the retry loop makes passes exactly the batch
value retryBatch was given, the same document list the initial
uploadBatch call received, so the documents are never re-transformed or
regenerated between attempts; and at the run level every uploaded
document list is one of the batches of the run. -/
theorem claim_C6_retries_upload_identical (okf : Nat → Bool) (mR bD : Nat)
    (batch : List β) (n : Nat) (bs : List (List β)) (m : Nat) :
    (∀ p ∈ uploads (retryBatch okf mR bD batch n).1, p.1 = batch) ∧
    (∀ p ∈ uploads (processBatches okf mR bD bs m).1, p.1 ∈ bs) := by
  constructor
  · intro p hp
    exact retryLoop_uploads_same okf batch bD mR 1 n p hp
  · intro p hp
    exact processBatches_uploads_mem okf mR bD bs m p hp

theorem claim_C6_witness :
    ((([7], false) : List Nat × Bool).1 = [7]) ∧
    ((([8], true) : List Nat × Bool).1 ∈ ([[8], [9]] : List (List Nat))) :=
  ⟨(claim_C6_retries_upload_identical (fun i => decide (1 ≤ i)) 2 5 [7] 0
      [[8], [9]] 0).1 ([7], false) (by decide),
   (claim_C6_retries_upload_identical (fun i => decide (1 ≤ i)) 2 5 [7] 0
      [[8], [9]] 0).2 ([8], true) (by decide)⟩

/-- C7: when the source returns zero documents (here: the first page is
empty, regardless of its hasMore flag), sync completes successfully with
an empty event trace, so zero batch-upload calls are made to the sink. -/
theorem claim_C7_sync_empty (fp : Nat → Except ε (PageData RawDocument))
    (fuel : Nat) (ctx : TransformCtx) (okf : Nat → Bool)
    (mR bD batchSize : Nat) (pd : PageData RawDocument)
    (h1 : fp 1 = .ok pd) (h2 : pd.documents = []) (hf : 1 ≤ fuel) :
    sync fp fuel ctx okf mR bD batchSize = .ok [] := by
  match fuel with
  | fuel + 1 =>
    unfold sync fetchAll
    rw [fetchAllLoop_eq_ok fp pd fuel 1 [] h1, if_neg (by rw [h2]; simp)]
    rfl

theorem claim_C7_witness :
    sync (fun _ => Except.ok (⟨[], false, 0⟩ : PageData RawDocument))
        1 ctxEx (fun _ => true) 3 5 10 = (.ok [] : SyncResult String) :=
  claim_C7_sync_empty (fun _ => Except.ok (⟨[], false, 0⟩ : PageData RawDocument))
    1 ctxEx (fun _ => true) 3 5 10 ⟨[], false, 0⟩ rfl rfl (by decide)

/-- C8: fetchAll requests pages 1, 2, 3, ... in increasing order (the
recorded call list is exactly 1..k), stops with the first page that has no
documents or a falsy hasMore flag, and returns the concatenation of the
page document lists in page order (first conjunct); a fetchPage failure
propagates out unmodified with no retry, aborting the fetch right after
the failing call (second conjunct). -/
theorem claim_C8_fetchAll (fp : Nat → Except ε (PageData δ))
    (pds : Nat → PageData δ) (e : ε) (k m fuel : Nat) :
    (1 ≤ k → k ≤ fuel →
      (∀ i, 1 ≤ i → i ≤ k → fp i = .ok (pds i)) →
      (∀ i, 1 ≤ i → i < k → (pds i).documents ≠ [] ∧ (pds i).hasMore = true) →
      ((pds k).documents = [] ∨ (pds k).hasMore = false) →
      fetchAll fp fuel
        = (.ok ((List.range' 1 k).flatMap fun i => (pds i).documents),
           List.range' 1 k)) ∧
    (m + 1 ≤ fuel →
      (∀ i, 1 ≤ i → i ≤ m →
        fp i = .ok (pds i) ∧ (pds i).documents ≠ [] ∧ (pds i).hasMore = true) →
      fp (m + 1) = .error e →
      (fetchAll fp fuel).1 = .fetchErr e ∧
      (fetchAll fp fuel).2 = List.range' 1 (m + 1)) := by
  constructor
  · intro hk hfuel hok hgood hstop
    unfold fetchAll
    have h := fetchAllLoop_stops fp pds k 1 fuel [] hk hfuel
      (fun i h1 h2 => hok i h1 (by omega))
      (fun i h1 h2 => hgood i h1 (by omega))
      (by rw [show 1 + k - 1 = k by omega]; exact hstop)
    simpa using h
  · intro hfuel hgood herr
    unfold fetchAll
    exact fetchAllLoop_err fp pds e m 1 fuel [] hfuel
      (fun i h1 h2 => hgood i h1 (by omega))
      (by rw [show 1 + m = m + 1 by omega]; exact herr)

/-- Pages for the C8 witness, first conjunct: page 1 has one document and
more to come, every later page is empty. -/
def pdsW1 : Nat → PageData Nat :=
  fun p => if p = 1 then ⟨[10], true, 0⟩ else ⟨[], false, 0⟩

/-- fetchPage oracle for the C8 witness, second conjunct: page 1 is good,
page 2 raises. -/
def fpW2 : Nat → Except String (PageData Nat) :=
  fun p => if p ≤ 1 then Except.ok ⟨[10], true, 0⟩ else Except.error "boom"

theorem claim_C8_witness :
    (fetchAll (fun p => (Except.ok (pdsW1 p) : Except String (PageData Nat))) 2
      = (.ok ((List.range' 1 2).flatMap fun i => (pdsW1 i).documents),
         List.range' 1 2)) ∧
    ((fetchAll fpW2 2).1 = (.fetchErr "boom" : FetchOutcome Nat String) ∧
      (fetchAll fpW2 2).2 = List.range' 1 (1 + 1)) :=
  ⟨(claim_C8_fetchAll
      (fun p => (Except.ok (pdsW1 p) : Except String (PageData Nat)))
      pdsW1 "unused" 2 0 2).1
      (by decide) (by decide)
      (fun i h1 h2 => rfl)
      (fun i h1 h2 => by
        have hi : i = 1 := by omega
        subst hi
        exact ⟨by decide, rfl⟩)
      (Or.inl rfl),
   (claim_C8_fetchAll fpW2 (fun _ => ⟨[10], true, 0⟩) "boom" 2 1 2).2
      (by decide)
      (fun i h1 h2 => by
        have hi : i = 1 := by omega
        subst hi
        exact ⟨rfl, by decide, rfl⟩)
      rfl⟩

/-- Upload oracle for the C9 counterexample: the very first upload call
fails, every later one succeeds. -/
def okfC9 : Nat → Bool := fun i => decide (1 ≤ i)

/-- C9 counterexample: two batches; the first fails its initial upload
and succeeds on its first retry, the second succeeds immediately. Both
batches are uploaded successfully, yet the trace contains no 1000ms
inter-batch delay anywhere: the courtesy delay is skipped when a batch
recovers via retryBatch, refuting the claim that about one second passes
between every pair of successive successful batch uploads. -/
theorem claim_C9_counterexample :
    processBatches okfC9 3 50 ([[1], [2]] : List (List Nat)) 0
      = ([.upl [1] false, .sleep 50, .upl [1] true, .upl [2] true], 3, true) ∧
    Ev.sleep 1000 ∉ (processBatches okfC9 3 50 ([[1], [2]] : List (List Nat)) 0).1 := by
  refine ⟨by decide, by decide⟩

/-- C9 amended: the fixed 1000ms inter-batch delay follows a non-final
batch only when that batch succeeded on its first uploadBatch attempt
(first conjunct); when a batch recovers through retryBatch, the next
batch is processed immediately after the successful retry, with no
inter-batch delay inserted between the two successful uploads (second
conjunct: the continuation trace starts right after retryEvsOk, which
ends with the successful upload). -/
theorem claim_C9_amended_delay (okf : Nat → Bool) (mR bD : Nat)
    (b : List β) (rest : List (List β)) (n : Nat) :
    (okf n = true → rest ≠ [] →
      ∃ t, (processBatches okf mR bD (b :: rest) n).1
        = .upl b true :: .sleep 1000 :: t) ∧
    (∀ k, k < mR → okf n = false →
      (∀ j, j < k → okf (n + 1 + j) = false) → okf (n + 1 + k) = true →
      (processBatches okf mR bD (b :: rest) n).1
        = .upl b false :: (retryEvsOk b bD k 0
            ++ (processBatches okf mR bD rest (n + k + 2)).1)) := by
  constructor
  · intro hok hrest
    have hne : rest.isEmpty = false := by
      rw [List.isEmpty_eq_false]
      exact hrest
    rw [processBatches_cons_eq, if_pos hok, hne]
    exact ⟨(processBatches okf mR bD rest (n + 1)).1, rfl⟩
  · intro k hk h0 hfail hok2
    have hretry : retryBatch okf mR bD b (n + 1)
        = (retryEvsOk b bD k 0, n + 1 + k + 1, true) := by
      unfold retryBatch
      have h := retryLoop_success okf b bD k mR 1 (n + 1) hk (le_refl 1) hfail hok2
      simpa using h
    rw [processBatches_cons_eq, if_neg (by rw [h0]; simp), hretry]
    have hn2 : n + 1 + k + 1 = n + k + 2 := by omega
    rw [hn2]
    rfl

theorem claim_C9_amended_witness :
    (∃ t, (processBatches (fun _ => true) 3 5 ([[1], [2]] : List (List Nat)) 0).1
      = .upl [1] true :: .sleep 1000 :: t) ∧
    ((processBatches (fun i => decide (2 ≤ i)) 3 5
        ([[1], [2]] : List (List Nat)) 0).1
      = .upl [1] false :: (retryEvsOk [1] 5 1 0
          ++ (processBatches (fun i => decide (2 ≤ i)) 3 5
              ([[2]] : List (List Nat)) (0 + 1 + 2)).1)) :=
  ⟨(claim_C9_amended_delay (fun _ => true) 3 5 [1] [[2]] 0).1 rfl (by decide),
   (claim_C9_amended_delay (fun i => decide (2 ≤ i)) 3 5 [1] [[2]] 0).2 1
      (by decide) (by decide) (by decide) (by decide)⟩

end QPlugin
